import Mathlib

/-!
RateLimitedBuffer: the tick/headroom relay `rlbuffer.RLBuffer`

A shallow embedding of `src/rate_limited_buffer.go`.

The Go program is concurrent: producers call `Push`, one goroutine runs
`pipe`, a consumer receives from `Deliveries()`.  All mutable state is owned
by the `pipe` goroutine, so the program is embedded as a labelled transition
system: the state is the `RLBuffer` struct together with the control point of
the `pipe` goroutine, and every label is one communication the goroutine (or a
caller) performs.

Modelling conventions.
* A Go channel is its contents (oldest first), its capacity and a closed flag.
  `input` is unbuffered, so only its closed flag is state.  `deliveries` is
  unbuffered too; the field `deliveries` records the values handed to the
  consumer so far, oldest first (the consumer is taken to be ready to receive,
  so a flush runs to completion as one transition).
* `time.Ticker` is not real time: a tick is a label of the transition system.
* Go `int` values are `Int`; `New` accepts a size only up to `maxInt` and the
  channel-size limit of the runtime, so `len`/`cap` of a channel never overflow.
* A runtime panic of the `pipe` goroutine and a send that can never complete
  are control points of their own (`Pc.panicked`, `Pc.sendBlocked`).
-/

namespace RLBuf

/-- Runtime panics of the Go runtime that the program can raise. -/
inductive Fault where
  /-- `make(chan T, n)` with `n < 0` or `n` above the limit of the runtime:
  "makechan: size out of range". -/
  | makechanSizeOutOfRange
  /-- A send on a closed channel: "send on closed channel". -/
  | sendOnClosedChannel
  /-- A `close` of a closed channel: "close of closed channel". -/
  | closeOfClosedChannel
  deriving DecidableEq, Repr

/-- Control point of the `pipe` goroutine. -/
inductive Pc (α : Type) where
  /-- `New` returned, `Start` not yet called: no `pipe` goroutine. -/
  | idle
  /-- Blocked in the `select` statement (line 56). -/
  | select
  /-- Blocked in `<-ticker.C` (line 63), holding the received `event`. -/
  | waitTick (event : α)
  /-- Blocked for ever in `r.buffer <- event` on a full buffer (lines 59, 64):
  no other goroutine ever receives from `r.buffer`. -/
  | sendBlocked (event : α)
  /-- After `break loop` (line 75): `pipe` returned. -/
  | done
  /-- The goroutine raised a runtime panic. -/
  | panicked (f : Fault)
  deriving DecidableEq, Repr

/-- The struct `RLBuffer` (lines 9-16) with the state of its channels, of the
context, and of the `pipe` goroutine (its ticker and control point). -/
structure RLBuffer (α : Type) where
  /-- Field `size`. -/
  size : Int
  /-- Whether `input` has been closed (`input` is unbuffered). -/
  inputClosed : Bool
  /-- The value of `cap(r.buffer)`. -/
  bufferCap : Int
  /-- Contents of the buffered channel `buffer`, oldest first. -/
  buffer : List α
  /-- Values sent on `deliveries` so far, oldest first. -/
  deliveries : List α
  /-- Whether `deliveries` has been closed. -/
  deliveriesClosed : Bool
  /-- Whether `cancel` has been called, i.e. `ctx.Done()` is closed. -/
  ctxDone : Bool
  /-- Whether the ticker of `pipe` exists and has not been stopped. -/
  tickerRunning : Bool
  /-- Control point of the `pipe` goroutine. -/
  pc : Pc α
  deriving DecidableEq, Repr

variable {α : Type}

/-- Largest value of Go's 64-bit `int`, the type of the argument of `New`. -/
def maxInt : Int := 9223372036854775807

/-- The channel-size limit of `make(chan interface{}, n)` on linux/amd64: the
runtime panics when `16 * n` exceeds `maxAlloc - hchanSize`, i.e. for
`n > (2^48 - 96) / 16`. -/
def chanLimitAmd64 : Int := 17592186044410

/-- The function `New` (lines 19-30). The argument is a Go `int`.
`make(chan interface{}, bufferSize)` panics with "makechan: size out of range"
for a negative size and for a size above the limit of the runtime; that limit
depends on the platform (element size, address space, memory) and is the
parameter `lim`, e.g. `chanLimitAmd64`; it never exceeds `maxInt`. Otherwise the
three channels are open and empty, and `bufferSize` is stored unchanged. -/
def New (lim : Int) (bufferSize : Int) : Except Fault (RLBuffer α) :=
  if bufferSize < 0 ∨ min lim maxInt < bufferSize then
    .error .makechanSizeOutOfRange
  else
    .ok
      { size := bufferSize
        inputClosed := false
        bufferCap := bufferSize
        buffer := []
        deliveries := []
        deliveriesClosed := false
        ctxDone := false
        tickerRunning := false
        pc := .idle }

/-- The method `Start` (lines 33-35): `go r.pipe()`; `pipe` creates its ticker
(line 52) and enters the `select`. Callers must call it exactly once; a second
call would start a second goroutine, which is outside this model (no change). -/
def Start (r : RLBuffer α) : RLBuffer α :=
  match r.pc with
  | .idle => { r with tickerRunning := true, pc := .select }
  | _ => r

/-- The method `Stop` (lines 37-39): `r.cancel()`. -/
def Stop (r : RLBuffer α) : RLBuffer α :=
  { r with ctxDone := true }

/-- The method `Deliveries` (lines 46-48), seen as what the consumer has
received and whether the channel is closed. -/
def Deliveries (r : RLBuffer α) : List α × Bool :=
  (r.deliveries, r.deliveriesClosed)

/-- The state a goroutine computation ends in. Such a computation is a value of
`Except (RLBuffer α) (RLBuffer α)`: `ok` when the goroutine goes on, `error` with
the state in which it stopped (blocked for ever or panicked). -/
def endState : Except (RLBuffer α) (RLBuffer α) → RLBuffer α
  | .ok r => r
  | .error r => r

/-- The statement `r.buffer <- event` (lines 59, 64): enqueue when the buffer has
a free slot, block otherwise. -/
def sendBuffer (r : RLBuffer α) (event : α) : Except (RLBuffer α) (RLBuffer α) :=
  if (r.buffer.length : Int) < r.bufferCap then
    .ok { r with buffer := r.buffer ++ [event] }
  else
    .error { r with pc := .sendBlocked event }

/-- The loop `for len(r.buffer) > 0 { r.deliveries <- <-r.buffer }` (lines 85-87),
by recursion on the contents of the buffer (the second argument is `r.buffer`).
The receive from the buffer is evaluated before the send, which panics on a
closed channel. -/
def flushLoop (r : RLBuffer α) : List α → Except (RLBuffer α) (RLBuffer α)
  | [] => .ok r
  | x :: rest =>
      if r.deliveriesClosed then
        .error { r with buffer := rest, pc := .panicked .sendOnClosedChannel }
      else
        flushLoop { r with buffer := rest, deliveries := r.deliveries ++ [x] } rest

/-- The method `flush` (lines 81-88). -/
def flush (r : RLBuffer α) : Except (RLBuffer α) (RLBuffer α) :=
  if r.buffer.length = 0 then
    .ok r
  else
    flushLoop r r.buffer

/-- The statement `close(r.input)` (line 71). -/
def closeInput (r : RLBuffer α) : Except (RLBuffer α) (RLBuffer α) :=
  if r.inputClosed then
    .error { r with pc := .panicked .closeOfClosedChannel }
  else
    .ok { r with inputClosed := true }

/-- The statement `close(r.deliveries)` (line 74). -/
def closeDeliveries (r : RLBuffer α) : Except (RLBuffer α) (RLBuffer α) :=
  if r.deliveriesClosed then
    .error { r with pc := .panicked .closeOfClosedChannel }
  else
    .ok { r with deliveriesClosed := true }

/-- The case `event := <-r.input` of `pipe` up to its next blocking point
(lines 57-63): below the headroom the event is enqueued and the loop continues;
otherwise the goroutine blocks in `<-ticker.C` holding the event. -/
def pipeInput (r : RLBuffer α) (event : α) : RLBuffer α :=
  if (r.buffer.length : Int) < r.bufferCap - 1 then
    endState (do
      let r1 ← sendBuffer r event
      pure { r1 with pc := .select })
  else
    { r with pc := .waitTick event }

/-- The rest of the case `event := <-r.input` once `<-ticker.C` returned
(lines 64-65): enqueue the held event, flush, back to the `select`. -/
def pipeForced (r : RLBuffer α) (event : α) : RLBuffer α :=
  endState (do
    let r1 ← sendBuffer r event
    let r2 ← flush r1
    pure { r2 with pc := .select })

/-- The case `<-ticker.C` of `pipe` (lines 67-68). -/
def pipeTick (r : RLBuffer α) : RLBuffer α :=
  endState (do
    let r1 ← flush r
    pure { r1 with pc := .select })

/-- The case `<-r.ctx.Done()` of `pipe` (lines 69-76). -/
def pipeDone (r : RLBuffer α) : RLBuffer α :=
  endState (do
    let r1 ← closeInput r
    let r2 ← flush { r1 with tickerRunning := false }
    let r3 ← closeDeliveries r2
    pure { r3 with pc := .done })

/-- Labels of the transition system. -/
inductive Ev (α : Type) where
  /-- A call of `Start`. -/
  | start
  /-- A call of `Stop`. -/
  | stop
  /-- A `Push event` completes: `pipe` takes the case `event := <-r.input`. -/
  | input (event : α)
  /-- The goroutine receives from `ticker.C` (line 63 or line 67). -/
  | tick
  /-- The goroutine takes the case `<-r.ctx.Done()`. -/
  | ctxDone
  deriving DecidableEq, Repr

/-- The method `pipe` (lines 51-79) as the transitions of its goroutine; `none`
when the goroutine cannot take the label in its state. In the `select` (line 56)
any ready case may be taken: a receive from `input`, a receive from `ticker.C`
while the ticker runs, a receive from `ctx.Done()` once the context is cancelled
(so after `Stop` the cases `input` and `tick` stay enabled until the shutdown
case is taken). In `<-ticker.C` (line 63) only the tick is awaited. -/
def pipe (r : RLBuffer α) : Ev α → Option (RLBuffer α)
  | .input event =>
      match r.pc with
      | .select => some (pipeInput r event)
      | _ => none
  | .tick =>
      if r.tickerRunning then
        match r.pc with
        | .select => some (pipeTick r)
        | .waitTick event => some (pipeForced r event)
        | _ => none
      else
        none
  | .ctxDone =>
      if r.ctxDone then
        match r.pc with
        | .select => some (pipeDone r)
        | _ => none
      else
        none
  | _ => none

/-- Outcome of a call of `Push`. -/
inductive PushResult (α : Type) where
  /-- The send on `input` panicked in the caller. -/
  | panic (f : Fault)
  /-- The send cannot complete in this state: the caller stays blocked. -/
  | blocked
  /-- The `pipe` goroutine received the event; the state after its reaction. -/
  | accepted (r : RLBuffer α)
  deriving DecidableEq, Repr

/-- The method `Push` (lines 42-44): `r.input <- event`. A send on a closed
channel panics; on the open unbuffered channel it completes exactly when the
`pipe` goroutine receives in its `select`. -/
def Push (r : RLBuffer α) (event : α) : PushResult α :=
  if r.inputClosed then
    .panic .sendOnClosedChannel
  else
    match pipe r (.input event) with
    | some r1 => .accepted r1
    | none => .blocked

/-- One transition; `none` when the label is not enabled in the state: the calls
of `Start`, `Stop` and `Push` and the transitions of `pipe`. -/
def step (r : RLBuffer α) : Ev α → Option (RLBuffer α)
  | .start =>
      match r.pc with
      | .idle => some (Start r)
      | _ => none
  | .stop => some (Stop r)
  | .input event =>
      match Push r event with
      | .accepted r1 => some r1
      | _ => none
  | .tick => pipe r .tick
  | .ctxDone => pipe r .ctxDone

/-- A run: the labels are taken one after the other; `none` when one of them is
not enabled. -/
def run (r : RLBuffer α) : List (Ev α) → Option (RLBuffer α)
  | [] => some r
  | ev :: evs =>
      match step r ev with
      | some r1 => run r1 evs
      | none => none

/-- The events the `pipe` goroutine received from `input` during a run, in the
order of their receipt. -/
def accepted : List (Ev α) → List α
  | [] => []
  | .input event :: evs => event :: accepted evs
  | _ :: evs => accepted evs

/-- The event the goroutine holds while it waits for the tick (line 63). -/
def pending (r : RLBuffer α) : List α :=
  match r.pc with
  | .waitTick event => [event]
  | _ => []

/-- Number of `ctxDone` transitions of a run: the executions of the shutdown
case, the only place where `close(r.deliveries)` (line 74) occurs. -/
def shutdowns : List (Ev α) → Nat
  | [] => 0
  | .ctxDone :: evs => shutdowns evs + 1
  | _ :: evs => shutdowns evs

/-- The loop is running: the goroutine is in its `select`, `input` and
`deliveries` are open and the ticker has not been stopped. -/
def Running (r : RLBuffer α) : Prop :=
  r.pc = .select ∧ r.inputClosed = false ∧ r.deliveriesClosed = false ∧
    r.tickerRunning = true

/-- Invariant of the states reachable from `New lim C` for `1 ≤ C`. -/
def Good (C : Int) (r : RLBuffer α) : Prop :=
  r.size = C ∧ r.bufferCap = C ∧
    match r.pc with
    | .idle =>
        r.inputClosed = false ∧ r.deliveriesClosed = false ∧ r.tickerRunning = false ∧
          r.buffer = [] ∧ r.deliveries = []
    | .select =>
        r.inputClosed = false ∧ r.deliveriesClosed = false ∧ r.tickerRunning = true ∧
          (r.buffer.length : Int) + 1 ≤ C
    | .waitTick _ =>
        r.inputClosed = false ∧ r.deliveriesClosed = false ∧ r.tickerRunning = true ∧
          (r.buffer.length : Int) + 1 = C
    | .done =>
        r.inputClosed = true ∧ r.deliveriesClosed = true ∧ r.tickerRunning = false ∧
          r.buffer = [] ∧ r.ctxDone = true
    | _ => False

/-- Invariant of the states reachable from `New lim C` for any `C`: the channels are
open until `pipe` returns and closed afterwards, and the goroutine never panics. -/
def Sane (r : RLBuffer α) : Prop :=
  match r.pc with
  | .done => r.inputClosed = true ∧ r.deliveriesClosed = true
  | .panicked _ => False
  | _ => r.inputClosed = false ∧ r.deliveriesClosed = false

/-- Number of values sent on `deliveries` in each flush window of a run, oldest
window first. A window starts at a tick and lasts until the next one; the
first window starts with the run. `cur` counts the current window so far. -/
def windows (r : RLBuffer α) (cur : Nat) : List (Ev α) → Option (List Nat)
  | [] => some [cur]
  | ev :: evs =>
      match step r ev with
      | none => none
      | some r1 =>
          let n := r1.deliveries.length - r.deliveries.length
          match ev with
          | .tick => (windows r1 n evs).map (fun ws => cur :: ws)
          | _ => windows r1 (cur + n) evs

/-! ## Lemmas on the operations -/

theorem flushLoop_open (l : List α) (r : RLBuffer α) (h : r.deliveriesClosed = false)
    (hb : r.buffer = l) :
    flushLoop r l = .ok { r with buffer := [], deliveries := r.deliveries ++ l } := by
  induction l generalizing r with
  | nil =>
      cases r
      simp_all [flushLoop]
  | cons x rest ih =>
      rw [flushLoop, if_neg (by simp [h])]
      rw [ih { r with buffer := rest, deliveries := r.deliveries ++ [x] } h rfl]
      simp

theorem flush_open (r : RLBuffer α) (h : r.deliveriesClosed = false) :
    flush r = .ok { r with buffer := [], deliveries := r.deliveries ++ r.buffer } := by
  unfold flush
  split
  · next h0 =>
      have hb : r.buffer = [] := List.length_eq_zero.mp h0
      cases r
      simp_all
  · exact flushLoop_open _ _ h rfl

theorem pipeTick_open (r : RLBuffer α) (h : r.deliveriesClosed = false) :
    pipeTick r =
      { r with buffer := [], deliveries := r.deliveries ++ r.buffer, pc := .select } := by
  simp [pipeTick, flush_open r h, endState, bind, Except.bind, pure, Except.pure]

theorem pipeForced_open (r : RLBuffer α) (event : α) (h : r.deliveriesClosed = false)
    (hlen : (r.buffer.length : Int) < r.bufferCap) :
    pipeForced r event =
      { r with buffer := [], deliveries := r.deliveries ++ (r.buffer ++ [event]),
               pc := .select } := by
  simp [pipeForced, sendBuffer, hlen, flush_open, h, endState, bind, Except.bind, pure,
    Except.pure]

theorem pipeDone_open (r : RLBuffer α) (hi : r.inputClosed = false)
    (h : r.deliveriesClosed = false) :
    pipeDone r =
      { r with inputClosed := true, tickerRunning := false, buffer := [],
               deliveries := r.deliveries ++ r.buffer, deliveriesClosed := true,
               pc := .done } := by
  simp [pipeDone, closeInput, closeDeliveries, hi, flush_open, h, endState, bind,
    Except.bind, pure, Except.pure]

theorem pipeInput_below (r : RLBuffer α) (event : α)
    (hlen : (r.buffer.length : Int) < r.bufferCap - 1) :
    pipeInput r event = { r with buffer := r.buffer ++ [event], pc := .select } := by
  have h2 : (r.buffer.length : Int) < r.bufferCap := by omega
  simp [pipeInput, sendBuffer, hlen, h2, endState, bind, Except.bind, pure, Except.pure]

theorem pipeInput_headroom (r : RLBuffer α) (event : α)
    (hlen : ¬ (r.buffer.length : Int) < r.bufferCap - 1) :
    pipeInput r event = { r with pc := .waitTick event } := by
  simp [pipeInput, hlen]

/-! ## The invariant -/

theorem good_New (lim C : Int) (r0 : RLBuffer α) (hNew : New lim C = .ok r0) : Good C r0 := by
  unfold New at hNew
  split at hNew
  · cases hNew
  · cases hNew
    simp [Good]

theorem good_step (C : Int) (hC : 1 ≤ C) (r r1 : RLBuffer α) (ev : Ev α)
    (hg : Good C r) (hs : step r ev = some r1) :
    Good C r1 ∧
      r1.deliveries ++ r1.buffer ++ pending r1 =
        r.deliveries ++ r.buffer ++ pending r ++ accepted [ev] ∧
      r1.deliveriesClosed.toNat = r.deliveriesClosed.toNat + shutdowns [ev] := by
  obtain ⟨size, ic, cap, buf, del, dc, cd, tr, pc⟩ := r
  obtain ⟨hsize, hcap, hpc⟩ := hg
  simp only at hsize hcap
  subst hsize hcap
  cases pc with
  | idle =>
      obtain ⟨h1, h2, h3, h4, h5⟩ := hpc
      simp only at h1 h2 h3 h4 h5
      subst h1 h2 h3 h4 h5
      cases ev <;> simp [step, pipe, Start, Stop, Push] at hs <;> subst hs <;>
        simp [Good, pending, accepted, shutdowns]
      omega
  | select =>
      obtain ⟨h1, h2, h3, h4⟩ := hpc
      simp only at h1 h2 h3 h4
      subst h1 h2 h3
      cases ev with
      | start => simp [step, pipe] at hs
      | stop =>
          simp [step, pipe, Stop] at hs
          subst hs
          simp [Good, pending, accepted, shutdowns, h4]
      | input event =>
          simp only [step, pipe, Push] at hs
          by_cases hlen : (buf.length : Int) < cap - 1
          · rw [pipeInput_below _ _ hlen] at hs
            simp at hs
            subst hs
            simp [Good, pending, accepted, shutdowns]
            omega
          · rw [pipeInput_headroom _ _ hlen] at hs
            simp at hs
            subst hs
            simp [Good, pending, accepted, shutdowns]
            simp at hlen
            omega
      | tick =>
          simp only [step, pipe] at hs
          rw [pipeTick_open _ rfl] at hs
          simp at hs
          subst hs
          simp [Good, pending, accepted, shutdowns]
          omega
      | ctxDone =>
          simp only [step, pipe] at hs
          rw [pipeDone_open _ rfl rfl] at hs
          cases cd <;> simp at hs
          subst hs
          simp [Good, pending, accepted, shutdowns]
  | waitTick e =>
      obtain ⟨h1, h2, h3, h4⟩ := hpc
      simp only at h1 h2 h3 h4
      subst h1 h2 h3
      cases ev with
      | start => simp [step, pipe] at hs
      | stop =>
          simp [step, pipe, Stop] at hs
          subst hs
          simp [Good, pending, accepted, shutdowns, h4]
      | input event => simp [step, pipe, Push] at hs
      | tick =>
          simp only [step, pipe] at hs
          rw [pipeForced_open _ _ rfl (by simp only; omega)] at hs
          simp at hs
          subst hs
          simp [Good, pending, accepted, shutdowns]
          omega
      | ctxDone =>
          simp only [step, pipe] at hs
          cases cd <;> simp at hs
  | sendBlocked e => simp [Good] at hpc
  | done =>
      obtain ⟨h1, h2, h3, h4, h5⟩ := hpc
      simp only at h1 h2 h3 h4 h5
      subst h1 h2 h3 h4 h5
      cases ev <;> simp [step, pipe, Stop, Push] at hs
      subst hs
      simp [Good, pending, accepted, shutdowns]
  | panicked f => simp [Good] at hpc

theorem accepted_append (a b : List (Ev α)) :
    accepted (a ++ b) = accepted a ++ accepted b := by
  induction a with
  | nil => rfl
  | cons ev a ih => cases ev <;> simp [accepted, ih]

theorem shutdowns_append (a b : List (Ev α)) :
    shutdowns (a ++ b) = shutdowns a + shutdowns b := by
  induction a with
  | nil => simp [shutdowns]
  | cons ev a ih =>
      cases ev <;> simp [shutdowns, ih]
      omega

theorem run_append (r : RLBuffer α) (a b : List (Ev α)) :
    run r (a ++ b) = (run r a).bind (fun r1 => run r1 b) := by
  induction a generalizing r with
  | nil => rfl
  | cons ev a ih =>
      simp only [List.cons_append, run]
      cases step r ev with
      | none => rfl
      | some r1 => exact ih r1

theorem good_run (C : Int) (hC : 1 ≤ C) (evs : List (Ev α)) (r s : RLBuffer α)
    (hg : Good C r) (hrun : run r evs = some s) :
    Good C s ∧
      s.deliveries ++ s.buffer ++ pending s =
        r.deliveries ++ r.buffer ++ pending r ++ accepted evs ∧
      s.deliveriesClosed.toNat = r.deliveriesClosed.toNat + shutdowns evs := by
  induction evs generalizing r with
  | nil =>
      simp only [run, Option.some.injEq] at hrun
      subst hrun
      simp [accepted, shutdowns, hg]
  | cons ev evs ih =>
      simp only [run] at hrun
      cases hstep : step r ev with
      | none => simp [hstep] at hrun
      | some r1 =>
          rw [hstep] at hrun
          obtain ⟨hg1, hacc1, hcl1⟩ := good_step C hC r r1 ev hg hstep
          obtain ⟨hg2, hacc2, hcl2⟩ := ih r1 hg1 hrun
          refine ⟨hg2, ?_, ?_⟩
          · have hsplit : accepted (ev :: evs) = accepted [ev] ++ accepted evs :=
              accepted_append [ev] evs
            rw [hacc2, hacc1, hsplit]
            simp
          · have hsplit : shutdowns (ev :: evs) = shutdowns [ev] + shutdowns evs :=
              shutdowns_append [ev] evs
            omega

/-- Every state reachable from `New lim C`, `1 ≤ C`, satisfies the invariant, and what
was delivered, what is staged and what is held back make up what was accepted. -/
theorem reachable_good (lim C : Int) (hC : 1 ≤ C) (r0 s : RLBuffer α) (evs : List (Ev α))
    (hNew : New lim C = .ok r0) (hrun : run r0 evs = some s) :
    Good C s ∧ s.deliveries ++ s.buffer ++ pending s = accepted evs ∧
      s.deliveriesClosed.toNat = shutdowns evs := by
  have hg0 := good_New lim C r0 hNew
  obtain ⟨hg, hacc, hcl⟩ := good_run C hC evs r0 s hg0 hrun
  have hidle : r0.deliveries = [] ∧ r0.buffer = [] ∧ pending r0 = [] ∧
      r0.deliveriesClosed = false := by
    unfold New at hNew
    split at hNew
    · cases hNew
    · cases hNew
      simp [pending]
  obtain ⟨h1, h2, h3, h4⟩ := hidle
  refine ⟨hg, ?_, ?_⟩
  · rw [hacc, h1, h2, h3]
    simp
  · rw [hcl, h4]
    simp

theorem good_select (C : Int) (s : RLBuffer α) (hg : Good C s) (hsel : s.pc = .select) :
    s.bufferCap = C ∧ Running s ∧ (s.buffer.length : Int) + 1 ≤ C := by
  obtain ⟨_, hcap, hpc⟩ := hg
  rw [hsel] at hpc
  exact ⟨hcap, ⟨hsel, hpc.1, hpc.2.1, hpc.2.2.1⟩, hpc.2.2.2⟩

theorem step_tick_running (s : RLBuffer α) (h : Running s) :
    step s .tick =
      some { s with buffer := [], deliveries := s.deliveries ++ s.buffer } := by
  obtain ⟨size, ic, cap, buf, del, dc, cd, tr, pc⟩ := s
  obtain ⟨hpc, hic, hdc, htr⟩ := h
  simp only at hpc hic hdc htr
  subst hpc hic hdc htr
  simp only [step, pipe]
  rw [pipeTick_open _ rfl]
  simp

theorem step_ctxDone_running (s : RLBuffer α) (h : Running s) (hstop : s.ctxDone = true) :
    step s .ctxDone =
      some { s with inputClosed := true, tickerRunning := false, buffer := [],
                    deliveries := s.deliveries ++ s.buffer, deliveriesClosed := true,
                    pc := .done } := by
  obtain ⟨size, ic, cap, buf, del, dc, cd, tr, pc⟩ := s
  obtain ⟨hpc, hic, hdc, htr⟩ := h
  simp only at hpc hic hdc htr hstop
  subst hpc hic hdc htr hstop
  simp only [step, pipe]
  rw [pipeDone_open _ rfl rfl]
  simp

theorem run_snoc (r s : RLBuffer α) (evs : List (Ev α)) (ev : Ev α)
    (hrun : run r (evs ++ [ev]) = some s) :
    ∃ m, run r evs = some m ∧ step m ev = some s := by
  rw [run_append] at hrun
  cases hm : run r evs with
  | none => simp [hm] at hrun
  | some m =>
      refine ⟨m, rfl, ?_⟩
      simp only [hm, Option.bind, run] at hrun
      cases hs : step m ev with
      | none => simp [hs] at hrun
      | some s1 =>
          simp only [hs] at hrun
          exact hrun

theorem good_closed (C : Int) (s : RLBuffer α) (hg : Good C s)
    (hcl : s.deliveriesClosed = true) :
    s.pc = .done ∧ s.buffer = [] ∧ s.inputClosed = true ∧ pending s = [] := by
  obtain ⟨size, ic, cap, buf, del, dc, cd, tr, pc⟩ := s
  simp only at hcl
  subst hcl
  cases pc <;> simp_all [Good, pending]

theorem good_no_pending (C : Int) (s : RLBuffer α) (hg : Good C s)
    (hpc : ∀ e, s.pc ≠ .waitTick e) : pending s = [] := by
  obtain ⟨size, ic, cap, buf, del, dc, cd, tr, pc⟩ := s
  cases pc <;> simp_all [Good, pending]

theorem step_tick_good (C : Int) (m s : RLBuffer α) (hg : Good C m)
    (hs : step m .tick = some s) :
    s.buffer = [] ∧ s.deliveries = m.deliveries ++ m.buffer ++ pending m := by
  obtain ⟨size, ic, cap, buf, del, dc, cd, tr, pc⟩ := m
  obtain ⟨hsize, hcap, hpc⟩ := hg
  simp only at hsize hcap
  cases pc with
  | idle => simp_all [step, pipe]
  | select =>
      obtain ⟨h1, h2, h3, h4⟩ := hpc
      simp only at h1 h2 h3 h4
      subst h1 h2 h3
      simp only [step, pipe] at hs
      rw [pipeTick_open _ rfl] at hs
      simp at hs
      subst hs
      simp [pending]
  | waitTick e =>
      obtain ⟨h1, h2, h3, h4⟩ := hpc
      simp only at h1 h2 h3 h4
      subst h1 h2 h3
      simp only [step, pipe] at hs
      rw [pipeForced_open _ _ rfl (by simp only; omega)] at hs
      simp at hs
      subst hs
      simp [pending]
  | sendBlocked e => simp [Good] at hpc
  | done => simp_all [step, pipe]
  | panicked f => simp [Good] at hpc

theorem step_wait (e : α) (w w1 : RLBuffer α) (ev : Ev α) (hpc : w.pc = .waitTick e)
    (hev : ev ≠ Ev.tick) (hs : step w ev = some w1) : w1 = Stop w := by
  obtain ⟨size, ic, cap, buf, del, dc, cd, tr, pc⟩ := w
  simp only at hpc
  subst hpc
  cases ev with
  | start => simp [step, pipe] at hs
  | stop =>
      simp only [step, pipe, Option.some.injEq] at hs
      exact hs.symm
  | input event => cases ic <;> simp [step, pipe, Push] at hs
  | tick => exact absurd rfl hev
  | ctxDone => cases cd <;> simp [step, pipe] at hs

theorem wait_run (e : α) (evs : List (Ev α)) (w s1 : RLBuffer α)
    (hpc : w.pc = .waitTick e) (hno : ∀ ev ∈ evs, ev ≠ Ev.tick)
    (hrun : run w evs = some s1) : s1 = w ∨ s1 = Stop w := by
  induction evs generalizing w with
  | nil =>
      simp only [run, Option.some.injEq] at hrun
      exact Or.inl hrun.symm
  | cons ev evs ih =>
      have hev : ev ≠ Ev.tick := hno ev (List.mem_cons_self _ _)
      have hrest : ∀ x ∈ evs, x ≠ Ev.tick := fun x hx => hno x (List.mem_cons_of_mem _ hx)
      simp only [run] at hrun
      cases hs : step w ev with
      | none => simp [hs] at hrun
      | some w1 =>
          rw [hs] at hrun
          have h1 := step_wait e w w1 ev hpc hev hs
          subst h1
          rcases ih (Stop w) hpc hrest hrun with h | h
          · exact Or.inr h
          · exact Or.inr h

theorem step_tick_wait (e : α) (t : RLBuffer α) (h1 : t.pc = .waitTick e)
    (h2 : t.tickerRunning = true) (h3 : t.deliveriesClosed = false)
    (h4 : (t.buffer.length : Int) < t.bufferCap) :
    step t .tick =
      some { t with buffer := [], deliveries := t.deliveries ++ t.buffer ++ [e],
                    pc := .select } := by
  obtain ⟨size, ic, cap, buf, del, dc, cd, tr, pc⟩ := t
  simp only at h1 h2 h3 h4
  subst h1 h2 h3
  simp only [step, pipe]
  rw [pipeForced_open _ _ rfl h4]
  simp

theorem good_bound (C : Int) (hC : 1 ≤ C) (s : RLBuffer α) (hg : Good C s) :
    (s.buffer.length : Int) ≤ C ∧ (∀ e, s.pc ≠ .sendBlocked e) ∧
      ((s.pc = .select ∨ ∃ e, s.pc = .waitTick e) →
        (s.buffer.length : Int) < s.bufferCap ∧ (s.buffer.length : Int) + 1 ≤ C) := by
  obtain ⟨size, ic, cap, buf, del, dc, cd, tr, pc⟩ := s
  obtain ⟨hsize, hcap, hpc⟩ := hg
  simp only at hsize hcap
  cases pc <;> simp_all [Good] <;> omega

theorem sendBuffer_free (s : RLBuffer α) (e : α)
    (h : (s.buffer.length : Int) < s.bufferCap) :
    sendBuffer s e = .ok { s with buffer := s.buffer ++ [e] } := by
  simp [sendBuffer, h]

theorem step_done (s s1 : RLBuffer α) (ev : Ev α) (hpc : s.pc = .done)
    (hs : step s ev = some s1) : ev = .stop ∧ s1 = Stop s := by
  obtain ⟨size, ic, cap, buf, del, dc, cd, tr, pc⟩ := s
  simp only at hpc
  subst hpc
  cases ev with
  | start => simp [step, pipe] at hs
  | stop =>
      simp only [step, pipe, Option.some.injEq] at hs
      exact ⟨rfl, hs.symm⟩
  | input event => cases ic <;> simp [step, pipe, Push] at hs
  | tick => cases tr <;> simp [step, pipe] at hs
  | ctxDone => cases cd <;> simp [step, pipe] at hs

theorem done_run (evs : List (Ev α)) (s s1 : RLBuffer α) (hpc : s.pc = .done)
    (hrun : run s evs = some s1) : (s1 = s ∨ s1 = Stop s) ∧ shutdowns evs = 0 := by
  induction evs generalizing s with
  | nil =>
      simp only [run, Option.some.injEq] at hrun
      exact ⟨Or.inl hrun.symm, rfl⟩
  | cons ev evs ih =>
      simp only [run] at hrun
      cases hs : step s ev with
      | none => simp [hs] at hrun
      | some w1 =>
          rw [hs] at hrun
          obtain ⟨hev, h1⟩ := step_done s w1 ev hpc hs
          subst h1 hev
          obtain ⟨h2, h3⟩ := ih (Stop s) hpc hrun
          refine ⟨?_, by simpa [shutdowns] using h3⟩
          rcases h2 with h | h
          · exact Or.inr h
          · exact Or.inr h

/-! ### The closed flag of `input` is never reset -/

theorem flushLoop_inputClosed (l : List α) (r : RLBuffer α) :
    (endState (flushLoop r l)).inputClosed = r.inputClosed := by
  induction l generalizing r with
  | nil => simp [flushLoop, endState]
  | cons x rest ih =>
      unfold flushLoop
      split
      · simp [endState]
      · exact ih _

theorem flush_inputClosed (r : RLBuffer α) :
    (endState (flush r)).inputClosed = r.inputClosed := by
  unfold flush
  split
  · simp [endState]
  · exact flushLoop_inputClosed _ _

theorem pipeTick_inputClosed (r : RLBuffer α) :
    (pipeTick r).inputClosed = r.inputClosed := by
  have h := flush_inputClosed r
  unfold pipeTick
  cases hf : flush r <;> rw [hf] at h <;>
    simpa [endState, bind, Except.bind, pure, Except.pure] using h

theorem pipeForced_inputClosed (r : RLBuffer α) (e : α) :
    (pipeForced r e).inputClosed = r.inputClosed := by
  unfold pipeForced sendBuffer
  split
  · have h := flush_inputClosed { r with buffer := r.buffer ++ [e] }
    cases hf : flush { r with buffer := r.buffer ++ [e] } <;> rw [hf] at h <;>
      simpa [endState, bind, Except.bind, pure, Except.pure, hf] using h
  · simp [endState, bind, Except.bind]

theorem pipeInput_inputClosed (r : RLBuffer α) (e : α) :
    (pipeInput r e).inputClosed = r.inputClosed := by
  unfold pipeInput sendBuffer
  split
  · split <;> simp [endState, bind, Except.bind, pure, Except.pure]
  · rfl

theorem pipeDone_inputClosed (r : RLBuffer α) : (pipeDone r).inputClosed = true := by
  unfold pipeDone closeInput
  split
  · next h => simpa [endState, bind, Except.bind] using h
  · have h := flush_inputClosed { r with inputClosed := true, tickerRunning := false }
    cases hf : flush { r with inputClosed := true, tickerRunning := false } with
    | error t =>
        rw [hf] at h
        simpa [endState, bind, Except.bind, pure, Except.pure, hf] using h
    | ok t =>
        rw [hf] at h
        simp only [endState] at h
        unfold closeDeliveries
        cases hd : t.deliveriesClosed <;>
          simp [endState, bind, Except.bind, pure, Except.pure, hf, hd, h]

theorem step_inputClosed (s s1 : RLBuffer α) (ev : Ev α) (hs : step s ev = some s1)
    (h : s.inputClosed = true ∨ ev = .ctxDone) : s1.inputClosed = true := by
  cases ev with
  | start =>
      have hic : s.inputClosed = true := by simpa using h
      simp only [step, pipe] at hs
      split at hs
      · simp only [Option.some.injEq] at hs
        subst hs
        simp only [Start]
        split <;> exact hic
      · cases hs
  | stop =>
      have hic : s.inputClosed = true := by simpa using h
      simp only [step, pipe, Option.some.injEq] at hs
      subst hs
      exact hic
  | input event =>
      have hic : s.inputClosed = true := by simpa using h
      simp [step, pipe, Push, hic] at hs
  | tick =>
      have hic : s.inputClosed = true := by simpa using h
      simp only [step, pipe] at hs
      split at hs
      · split at hs
        · simp only [Option.some.injEq] at hs
          subst hs
          rw [pipeTick_inputClosed, hic]
        · simp only [Option.some.injEq] at hs
          subst hs
          rw [pipeForced_inputClosed, hic]
        · cases hs
      · cases hs
  | ctxDone =>
      simp only [step, pipe] at hs
      split at hs
      · split at hs
        · simp only [Option.some.injEq] at hs
          subst hs
          exact pipeDone_inputClosed s
        · cases hs
      · cases hs

theorem run_inputClosed (evs : List (Ev α)) (s s1 : RLBuffer α)
    (hrun : run s evs = some s1) (h : s.inputClosed = true) : s1.inputClosed = true := by
  induction evs generalizing s with
  | nil =>
      simp only [run, Option.some.injEq] at hrun
      subst hrun
      exact h
  | cons ev evs ih =>
      simp only [run] at hrun
      cases hs : step s ev with
      | none => simp [hs] at hrun
      | some w1 =>
          rw [hs] at hrun
          exact ih w1 hrun (step_inputClosed s w1 ev hs (Or.inl h))

theorem run_split (r s : RLBuffer α) (a b : List (Ev α))
    (hrun : run r (a ++ b) = some s) : ∃ m, run r a = some m ∧ run m b = some s := by
  rw [run_append] at hrun
  cases hm : run r a with
  | none => simp [hm] at hrun
  | some m =>
      rw [hm] at hrun
      exact ⟨m, rfl, hrun⟩

/-! ### Open channels until the loop ends, for every capacity -/

theorem sane_step (r r1 : RLBuffer α) (ev : Ev α) (hsane : Sane r)
    (hs : step r ev = some r1) :
    Sane r1 ∧ r1.deliveriesClosed.toNat = r.deliveriesClosed.toNat + shutdowns [ev] := by
  obtain ⟨size, ic, cap, buf, del, dc, cd, tr, pc⟩ := r
  cases pc with
  | idle =>
      obtain ⟨h1, h2⟩ := hsane
      simp only at h1 h2
      subst h1 h2
      cases ev <;> simp [step, pipe, Start, Stop, Push] at hs <;> subst hs <;>
        simp [Sane, shutdowns]
  | select =>
      obtain ⟨h1, h2⟩ := hsane
      simp only at h1 h2
      subst h1 h2
      cases ev with
      | start => simp [step, pipe] at hs
      | stop =>
          simp [step, pipe, Stop] at hs
          subst hs
          simp [Sane, shutdowns]
      | input event =>
          simp only [step, pipe, Push] at hs
          simp only [Bool.false_eq_true, if_false, Option.some.injEq] at hs
          subst hs
          unfold pipeInput sendBuffer
          split
          · split <;> simp [Sane, shutdowns, endState, bind, Except.bind, pure, Except.pure]
          · simp [Sane, shutdowns]
      | tick =>
          simp only [step, pipe] at hs
          rw [pipeTick_open _ rfl] at hs
          cases tr <;> simp at hs
          subst hs
          simp [Sane, shutdowns]
      | ctxDone =>
          simp only [step, pipe] at hs
          rw [pipeDone_open _ rfl rfl] at hs
          cases cd <;> simp at hs
          subst hs
          simp [Sane, shutdowns]
  | waitTick e =>
      obtain ⟨h1, h2⟩ := hsane
      simp only at h1 h2
      subst h1 h2
      cases ev with
      | start => simp [step, pipe] at hs
      | stop =>
          simp [step, pipe, Stop] at hs
          subst hs
          simp [Sane, shutdowns]
      | input event => simp [step, pipe, Push] at hs
      | tick =>
          simp only [step, pipe] at hs
          cases tr <;> simp at hs
          subst hs
          by_cases hlen : (buf.length : Int) < cap
          · rw [pipeForced_open _ _ rfl hlen]
            simp [Sane, shutdowns]
          · simp [pipeForced, sendBuffer, hlen, Sane, shutdowns, endState, bind, Except.bind]
      | ctxDone =>
          simp only [step, pipe] at hs
          cases cd <;> simp at hs
  | sendBlocked e =>
      obtain ⟨h1, h2⟩ := hsane
      simp only at h1 h2
      subst h1 h2
      cases ev with
      | start => simp [step, pipe] at hs
      | stop =>
          simp [step, pipe, Stop] at hs
          subst hs
          simp [Sane, shutdowns]
      | input event => simp [step, pipe, Push] at hs
      | tick =>
          simp only [step, pipe] at hs
          cases tr <;> simp at hs
      | ctxDone =>
          simp only [step, pipe] at hs
          cases cd <;> simp at hs
  | done =>
      obtain ⟨h1, h2⟩ := hsane
      simp only at h1 h2
      subst h1 h2
      cases ev with
      | start => simp [step, pipe] at hs
      | stop =>
          simp [step, pipe, Stop] at hs
          subst hs
          simp [Sane, shutdowns]
      | input event => simp [step, pipe, Push] at hs
      | tick =>
          simp only [step, pipe] at hs
          cases tr <;> simp at hs
      | ctxDone =>
          simp only [step, pipe] at hs
          cases cd <;> simp at hs
  | panicked f => simp [Sane] at hsane

theorem sane_run (evs : List (Ev α)) (r s : RLBuffer α) (hsane : Sane r)
    (hrun : run r evs = some s) :
    Sane s ∧ s.deliveriesClosed.toNat = r.deliveriesClosed.toNat + shutdowns evs := by
  induction evs generalizing r with
  | nil =>
      simp only [run, Option.some.injEq] at hrun
      subst hrun
      simp [shutdowns, hsane]
  | cons ev evs ih =>
      simp only [run] at hrun
      cases hstep : step r ev with
      | none => simp [hstep] at hrun
      | some r1 =>
          rw [hstep] at hrun
          obtain ⟨h1, hc1⟩ := sane_step r r1 ev hsane hstep
          obtain ⟨h2, hc2⟩ := ih r1 h1 hrun
          have hsplit : shutdowns (ev :: evs) = shutdowns [ev] + shutdowns evs :=
            shutdowns_append [ev] evs
          exact ⟨h2, by omega⟩

theorem reachable_sane (lim C : Int) (r0 s : RLBuffer α) (evs : List (Ev α))
    (hNew : New lim C = .ok r0) (hrun : run r0 evs = some s) :
    Sane s ∧ s.deliveriesClosed.toNat = shutdowns evs := by
  have h0 : Sane r0 ∧ r0.deliveriesClosed = false := by
    unfold New at hNew
    split at hNew
    · cases hNew
    · cases hNew
      simp [Sane]
  obtain ⟨h1, h2⟩ := sane_run evs r0 s h0.1 hrun
  rw [h0.2] at h2
  exact ⟨h1, by simpa using h2⟩

theorem sane_closed (s : RLBuffer α) (hsane : Sane s) (hcl : s.deliveriesClosed = true) :
    s.pc = .done := by
  obtain ⟨size, ic, cap, buf, del, dc, cd, tr, pc⟩ := s
  simp only at hcl
  subst hcl
  cases pc <;> simp_all [Sane]

/-! ### Deliveries per flush window -/

theorem pipeInput_deliveries (r : RLBuffer α) (e : α) :
    (pipeInput r e).deliveries = r.deliveries := by
  unfold pipeInput sendBuffer
  split
  · split <;> simp [endState, bind, Except.bind, pure, Except.pure]
  · rfl

theorem step_deliveries_other (r r1 : RLBuffer α) (ev : Ev α) (hs : step r ev = some r1)
    (h1 : ev ≠ .tick) (h2 : ev ≠ .ctxDone) : r1.deliveries = r.deliveries := by
  cases ev with
  | start =>
      simp only [step, pipe] at hs
      split at hs
      · simp only [Option.some.injEq] at hs
        subst hs
        simp only [Start]
        split <;> rfl
      · cases hs
  | stop =>
      simp only [step, pipe, Option.some.injEq] at hs
      subst hs
      rfl
  | input event =>
      obtain ⟨size, ic, cap, buf, del, dc, cd, tr, pc⟩ := r
      cases ic <;> cases pc <;> simp [step, pipe, Push] at hs
      subst hs
      exact pipeInput_deliveries _ event
  | tick => exact absurd rfl h1
  | ctxDone => exact absurd rfl h2

theorem good_pending_len (C : Int) (hC : 1 ≤ C) (r : RLBuffer α) (hg : Good C r) :
    ((r.buffer.length + (pending r).length : Nat) : Int) ≤ C := by
  obtain ⟨size, ic, cap, buf, del, dc, cd, tr, pc⟩ := r
  obtain ⟨hsize, hcap, hpc⟩ := hg
  cases pc <;> simp_all [Good, pending] <;> omega

theorem windows_bound (C : Int) (hC : 1 ≤ C) (evs : List (Ev α)) (r : RLBuffer α)
    (cur : Nat) (ws : List Nat) (hg : Good C r) (hcur : (cur : Int) ≤ C)
    (hno : shutdowns evs = 0) (hw : windows r cur evs = some ws) :
    ∀ n ∈ ws, (n : Int) ≤ C := by
  induction evs generalizing r cur ws with
  | nil =>
      simp only [windows, Option.some.injEq] at hw
      subst hw
      intro n hn
      simp only [List.mem_singleton] at hn
      subst hn
      exact hcur
  | cons ev evs ih =>
      simp only [windows] at hw
      cases hs : step r ev with
      | none => simp [hs] at hw
      | some r1 =>
          rw [hs] at hw
          simp only at hw
          obtain ⟨hg1, _, _⟩ := good_step C hC r r1 ev hg hs
          cases ev with
          | tick =>
              simp only [Option.map_eq_some'] at hw
              obtain ⟨ws1, hw1, hws⟩ := hw
              subst hws
              have hno1 : shutdowns evs = 0 := by simpa [shutdowns] using hno
              obtain ⟨_, hdel⟩ := step_tick_good C r r1 hg hs
              have hlen := good_pending_len C hC r hg
              have hn : ((r1.deliveries.length - r.deliveries.length : Nat) : Int) ≤ C := by
                rw [hdel]
                simp only [List.length_append]
                omega
              intro n hmem
              rcases List.mem_cons.mp hmem with h | h
              · subst h
                exact hcur
              · exact ih r1 _ ws1 hg1 hn hno1 hw1 n h
          | ctxDone => simp [shutdowns] at hno
          | start =>
              have hno1 : shutdowns evs = 0 := by simpa [shutdowns] using hno
              have hd := step_deliveries_other r r1 _ hs (by simp) (by simp)
              rw [hd] at hw
              simp only [Nat.sub_self, Nat.add_zero] at hw
              exact ih r1 cur ws hg1 hcur hno1 hw
          | stop =>
              have hno1 : shutdowns evs = 0 := by simpa [shutdowns] using hno
              have hd := step_deliveries_other r r1 _ hs (by simp) (by simp)
              rw [hd] at hw
              simp only [Nat.sub_self, Nat.add_zero] at hw
              exact ih r1 cur ws hg1 hcur hno1 hw
          | input event =>
              have hno1 : shutdowns evs = 0 := by simpa [shutdowns] using hno
              have hd := step_deliveries_other r r1 _ hs (by simp) (by simp)
              rw [hd] at hw
              simp only [Nat.sub_self, Nat.add_zero] at hw
              exact ih r1 cur ws hg1 hcur hno1 hw

/-- Until the shutdown case runs, the documented rate limit holds: for every
capacity `1 ≤ C` and every run from `New lim C` without a shutdown transition, every
flush window sees at most `size` deliveries. -/
theorem rate_limit_before_shutdown (lim C : Int) (hC : 1 ≤ C) (r0 : RLBuffer α)
    (evs : List (Ev α)) (ws : List Nat) (hNew : New lim C = .ok r0)
    (hno : shutdowns evs = 0) (hw : windows r0 0 evs = some ws) :
    ∀ n ∈ ws, (n : Int) ≤ r0.size := by
  have hg := good_New lim C r0 hNew
  rw [hg.1]
  exact windows_bound C hC evs r0 0 ws hg (by omega) hno hw

/-! ### Shutdown is always possible -/

theorem run_stop_ctxDone (s : RLBuffer α) (h : Running s) :
    run s [.stop, .ctxDone] =
      some { s with ctxDone := true, inputClosed := true, tickerRunning := false,
                    buffer := [], deliveries := s.deliveries ++ s.buffer,
                    deliveriesClosed := true, pc := .done } := by
  have h2 : Running (Stop s) := h
  have h1 : step s .stop = some (Stop s) := rfl
  have h3 := step_ctxDone_running (Stop s) h2 rfl
  simp only [run, h1, h3]
  simp [Stop]

theorem running_shutdown (t : RLBuffer α) (h : Running t) :
    ∃ s1 : RLBuffer α, run t [.stop, .ctxDone] = some s1 ∧
      Deliveries s1 = (t.deliveries ++ t.buffer, true) :=
  ⟨_, run_stop_ctxDone t h, rfl⟩

/-- From every state reachable from `New lim C`, `1 ≤ C`, the run can be completed by
a shutdown, after which everything accepted so far has been delivered. -/
theorem shutdown_reachable (lim C : Int) (hC : 1 ≤ C) (r0 s : RLBuffer α)
    (evs : List (Ev α)) (hNew : New lim C = .ok r0) (hrun : run r0 evs = some s) :
    ∃ (evs1 : List (Ev α)) (s1 : RLBuffer α),
      run s evs1 = some s1 ∧ Deliveries s1 = (accepted evs, true) := by
  obtain ⟨hg, hacc, _⟩ := reachable_good lim C hC r0 s evs hNew hrun
  obtain ⟨size, ic, cap, buf, del, dc, cd, tr, pc⟩ := s
  obtain ⟨hsize, hcap, hpc⟩ := hg
  simp only at hsize hcap hacc
  cases pc with
  | idle =>
      obtain ⟨h1, h2, h3, h4, h5⟩ := hpc
      simp only at h1 h2 h3 h4 h5
      subst h1 h2 h3 h4 h5
      obtain ⟨s1, hs1, hd1⟩ := running_shutdown
        (⟨size, false, cap, [], [], false, cd, true, .select⟩ : RLBuffer α)
        ⟨rfl, rfl, rfl, rfl⟩
      refine ⟨[.start, .stop, .ctxDone], s1, hs1, ?_⟩
      rw [hd1]
      simpa [pending] using hacc
  | select =>
      obtain ⟨h1, h2, h3, h4⟩ := hpc
      simp only at h1 h2 h3 h4
      subst h1 h2 h3
      obtain ⟨s1, hs1, hd1⟩ := running_shutdown
        (⟨size, false, cap, buf, del, false, cd, true, .select⟩ : RLBuffer α)
        ⟨rfl, rfl, rfl, rfl⟩
      refine ⟨[.stop, .ctxDone], s1, hs1, ?_⟩
      rw [hd1]
      simpa [pending] using hacc
  | waitTick e =>
      obtain ⟨h1, h2, h3, h4⟩ := hpc
      simp only at h1 h2 h3 h4
      subst h1 h2 h3
      obtain ⟨s1, hs1, hd1⟩ := running_shutdown
        (⟨size, false, cap, [], del ++ buf ++ [e], false, cd, true, .select⟩ : RLBuffer α)
        ⟨rfl, rfl, rfl, rfl⟩
      have htick := step_tick_wait e
        (⟨size, false, cap, buf, del, false, cd, true, .waitTick e⟩ : RLBuffer α)
        rfl rfl rfl (by simp only; omega)
      refine ⟨[.tick, .stop, .ctxDone], s1, ?_, ?_⟩
      · rw [run, htick]
        exact hs1
      · rw [hd1]
        simpa [pending] using hacc
  | sendBlocked e => simp [Good] at hpc
  | done =>
      obtain ⟨h1, h2, h3, h4, h5⟩ := hpc
      simp only at h1 h2 h3 h4 h5
      subst h1 h2 h3 h4 h5
      refine ⟨[], _, rfl, ?_⟩
      simpa [Deliveries, pending] using hacc
  | panicked f => simp [Good] at hpc

/-! ## Properties of the relay -/

/-- C1 - no loss, exactly once. For every capacity `1 ≤ C` and every run from
`New lim C` that ends with the shutdown case of `pipe`, the values received on
`Deliveries()` when the channel is closed are exactly the events the goroutine
received from `Push` before, in their order: none lost, none duplicated. -/
theorem C1_no_loss_exactly_once (lim C : Int) (hC : 1 ≤ C) (r0 s : RLBuffer α)
    (evs : List (Ev α)) (hNew : New lim C = .ok r0)
    (hrun : run r0 (evs ++ [.ctxDone]) = some s) :
    Deliveries s = (accepted evs, true) ∧ s.buffer = [] ∧ s.pc = .done := by
  obtain ⟨hg, hacc, hcl⟩ := reachable_good lim C hC r0 s _ hNew hrun
  rw [shutdowns_append] at hcl
  have hclosed : s.deliveriesClosed = true := by
    cases hdc : s.deliveriesClosed with
    | true => rfl
    | false =>
        rw [hdc] at hcl
        simp [shutdowns] at hcl
  obtain ⟨hpc, hbuf, _, hpend⟩ := good_closed C s hg hclosed
  rw [accepted_append, hbuf, hpend] at hacc
  simp [accepted] at hacc
  exact ⟨by simp [Deliveries, hacc, hclosed], hbuf, hpc⟩

/-- Witness of C1: capacity 3, events a, b, c, d; c is held back until the tick,
d is accepted after the call of `Stop`. -/
theorem C1_no_loss_exactly_once_witness :
    Deliveries
        (⟨3, true, 3, [], ["a", "b", "c", "d"], true, true, false, .done⟩ : RLBuffer String) =
      (accepted
        [.start, .input "a", .input "b", .input "c", .tick, .stop, .input "d"], true) ∧
    ([] : List String) = [] ∧ (Pc.done : Pc String) = .done :=
  C1_no_loss_exactly_once chanLimitAmd64 3 (by decide)
    ⟨3, false, 3, [], [], false, false, false, .idle⟩
    ⟨3, true, 3, [], ["a", "b", "c", "d"], true, true, false, .done⟩
    [.start, .input "a", .input "b", .input "c", .tick, .stop, .input "d"] rfl rfl

/-- C2 as stated fails: with capacity 1, after `Push "a"` was received the
goroutine waits for the tick (line 63) holding "a"; nothing is delivered, nothing
is staged, yet "a" was accepted. -/
theorem C2_counterexample :
    ¬ ∀ (lim C : Int) (r0 s : RLBuffer String) (evs : List (Ev String)),
        1 ≤ C → New lim C = .ok r0 → run r0 evs = some s →
          s.deliveries ++ s.buffer = accepted evs := by
  intro h
  have h1 := h chanLimitAmd64 1 ⟨1, false, 1, [], [], false, false, false, .idle⟩
    ⟨1, false, 1, [], [], false, false, true, .waitTick "a"⟩
    [.start, .input "a"] (by decide) rfl rfl
  simp [accepted] at h1

/-- C2 amended - FIFO preservation. For every capacity `1 ≤ C` and every state
reachable from `New lim C`: the delivered events, then the staged events, then the
event the goroutine holds back while it waits for the tick (if any) are the
accepted events in their order; when no event is held back, delivered followed by
staged is the accepted sequence; the delivered sequence is always a prefix of the
accepted one. -/
theorem C2_fifo_preservation (lim C : Int) (hC : 1 ≤ C) (r0 s : RLBuffer α)
    (evs : List (Ev α)) (hNew : New lim C = .ok r0) (hrun : run r0 evs = some s) :
    s.deliveries ++ s.buffer ++ pending s = accepted evs ∧
      ((∀ e, s.pc ≠ .waitTick e) → s.deliveries ++ s.buffer = accepted evs) ∧
      s.deliveries <+: accepted evs := by
  obtain ⟨hg, hacc, _⟩ := reachable_good lim C hC r0 s evs hNew hrun
  refine ⟨hacc, ?_, ?_⟩
  · intro hpc
    rw [good_no_pending C s hg hpc] at hacc
    simpa using hacc
  · rw [← hacc, List.append_assoc]
    exact List.prefix_append _ _

/-- Witness of C2: capacity 3, "a" delivered by a tick, "b" and "c" staged; first
with "d" held back, then in the `select` before "d" arrives. -/
theorem C2_fifo_preservation_witness :
    (["a"] ++ ["b", "c"] ++
        pending (⟨3, false, 3, ["b", "c"], ["a"], false, false, true, .waitTick "d"⟩ :
          RLBuffer String) =
      accepted [.start, .input "a", .tick, .input "b", .input "c", .input "d"] ∧
    ["a"] <+: accepted [.start, .input "a", .tick, .input "b", .input "c", .input "d"]) ∧
    ["a"] ++ ["b", "c"] =
      accepted ([.start, .input "a", .tick, .input "b", .input "c"] : List (Ev String)) :=
  have h1 := C2_fifo_preservation chanLimitAmd64 3 (by decide)
    (⟨3, false, 3, [], [], false, false, false, .idle⟩ : RLBuffer String)
    ⟨3, false, 3, ["b", "c"], ["a"], false, false, true, .waitTick "d"⟩
    [.start, .input "a", .tick, .input "b", .input "c", .input "d"] rfl rfl
  have h2 := C2_fifo_preservation chanLimitAmd64 3 (by decide)
    (⟨3, false, 3, [], [], false, false, false, .idle⟩ : RLBuffer String)
    ⟨3, false, 3, ["b", "c"], ["a"], false, false, true, .select⟩
    [.start, .input "a", .tick, .input "b", .input "c"] rfl rfl
  ⟨⟨h1.1, h1.2.2⟩, h2.2.1 (fun _ h => Pc.noConfusion h)⟩

/-- C3 - graceful shutdown drains, then closes. For every running state with
staged events `q` and delivered events `d`, a call of `Stop` followed by the
shutdown case of `pipe` closes `input`, stops the ticker, delivers `q` in order
after `d`, leaves the buffer empty, closes `deliveries` and ends the loop; the
shutdown case alone does so whenever the context is already cancelled. -/
theorem C3_shutdown_drains_then_closes (s : RLBuffer α) (h : Running s) :
    run s [.stop, .ctxDone] =
        some { s with ctxDone := true, inputClosed := true, tickerRunning := false,
                      buffer := [], deliveries := s.deliveries ++ s.buffer,
                      deliveriesClosed := true, pc := .done } ∧
      (s.ctxDone = true →
        step s .ctxDone =
          some { s with inputClosed := true, tickerRunning := false, buffer := [],
                        deliveries := s.deliveries ++ s.buffer,
                        deliveriesClosed := true, pc := .done }) := by
  exact ⟨run_stop_ctxDone s h, step_ctxDone_running s h⟩

/-- Witness of C3: the queue holds "x", "y" at `Stop()`; the consumer gets "x",
then "y", then the closure. -/
theorem C3_shutdown_drains_then_closes_witness :
    run (⟨3, false, 3, ["x", "y"], [], false, false, true, .select⟩ : RLBuffer String)
        [.stop, .ctxDone] =
      some ⟨3, true, 3, [], ["x", "y"], true, true, false, .done⟩ ∧
    step (⟨3, false, 3, ["x", "y"], [], false, true, true, .select⟩ : RLBuffer String)
        .ctxDone =
      some ⟨3, true, 3, [], ["x", "y"], true, true, false, .done⟩ :=
  ⟨(C3_shutdown_drains_then_closes
      (⟨3, false, 3, ["x", "y"], [], false, false, true, .select⟩ : RLBuffer String)
      ⟨rfl, rfl, rfl, rfl⟩).1,
    (C3_shutdown_drains_then_closes
      (⟨3, false, 3, ["x", "y"], [], false, true, true, .select⟩ : RLBuffer String)
      ⟨rfl, rfl, rfl, rfl⟩).2 rfl⟩

/-- C4 - intake policy with one slot of headroom. For every capacity `1 ≤ C`,
every event `e` and every state of a run from `New lim C` in which the loop is in its
`select`, with staged events `q` and delivered events `d`: if `length q < C - 1`
the intake appends `e` and delivers nothing; otherwise (then `length q = C - 1`)
`e` is held back, and as long as no tick fires nothing is staged or delivered,
and the tick appends `e` and flushes everything: the output becomes
`d ++ q ++ [e]` and the buffer is empty. -/
theorem C4_intake_headroom (lim C : Int) (hC : 1 ≤ C) (r0 s : RLBuffer α)
    (evs : List (Ev α)) (hNew : New lim C = .ok r0) (hrun : run r0 evs = some s)
    (hsel : s.pc = .select) (e : α) :
    ((s.buffer.length : Int) < C - 1 →
        step s (.input e) = some { s with buffer := s.buffer ++ [e] }) ∧
      (¬ (s.buffer.length : Int) < C - 1 →
        (s.buffer.length : Int) = C - 1 ∧
        step s (.input e) = some { s with pc := .waitTick e } ∧
        ∀ (evs1 : List (Ev α)) (s1 : RLBuffer α), (∀ ev ∈ evs1, ev ≠ Ev.tick) →
          run { s with pc := .waitTick e } evs1 = some s1 →
            s1.buffer = s.buffer ∧ s1.deliveries = s.deliveries ∧
            step s1 .tick =
              some { s1 with buffer := [],
                             deliveries := s.deliveries ++ s.buffer ++ [e],
                             pc := .select }) := by
  obtain ⟨hg, _, _⟩ := reachable_good lim C hC r0 s evs hNew hrun
  obtain ⟨hcap, ⟨_, hic, hdc, htr⟩, hlen⟩ := good_select C s hg hsel
  have hpush : step s (.input e) = some (pipeInput s e) := by
    simp [step, pipe, Push, hic, hsel]
  refine ⟨?_, ?_⟩
  · intro hlt
    rw [hpush, pipeInput_below s e (by rw [hcap]; exact hlt)]
    obtain ⟨size, ic, cap, buf, del, dc, cd, tr, pc⟩ := s
    simp only at hsel
    simp [hsel]
  · intro hge
    refine ⟨by omega, ?_, ?_⟩
    · rw [hpush, pipeInput_headroom s e (by rw [hcap]; exact hge)]
    · intro evs1 s1 hno hrun1
      have hfire := step_tick_wait e
      have hlt : (s.buffer.length : Int) < s.bufferCap := by omega
      rcases wait_run e evs1 _ s1 rfl hno hrun1 with h | h <;> subst h
      · exact ⟨rfl, rfl, hfire _ rfl htr hdc hlt⟩
      · exact ⟨rfl, rfl, hfire _ rfl htr hdc hlt⟩

/-- Witness of C4: capacity 3, pushes "a", "b", "c": "a" and "b" are staged without
a flush, "c" waits for the tick, after which the deliveries are "a", "b", "c". -/
theorem C4_intake_headroom_witness :
    step (⟨3, false, 3, ["a"], [], false, false, true, .select⟩ : RLBuffer String)
        (.input "b") =
      some ⟨3, false, 3, ["a", "b"], [], false, false, true, .select⟩ ∧
    step (⟨3, false, 3, ["a", "b"], [], false, false, true, .select⟩ : RLBuffer String)
        (.input "c") =
      some ⟨3, false, 3, ["a", "b"], [], false, false, true, .waitTick "c"⟩ ∧
    step (⟨3, false, 3, ["a", "b"], [], false, false, true, .waitTick "c"⟩ :
        RLBuffer String) .tick =
      some ⟨3, false, 3, [], ["a", "b", "c"], false, false, true, .select⟩ := by
  have h1 := C4_intake_headroom chanLimitAmd64 3 (by decide)
    (⟨3, false, 3, [], [], false, false, false, .idle⟩ : RLBuffer String)
    ⟨3, false, 3, ["a"], [], false, false, true, .select⟩
    [.start, .input "a"] rfl rfl rfl "b"
  have h2 := C4_intake_headroom chanLimitAmd64 3 (by decide)
    (⟨3, false, 3, [], [], false, false, false, .idle⟩ : RLBuffer String)
    ⟨3, false, 3, ["a", "b"], [], false, false, true, .select⟩
    [.start, .input "a", .input "b"] rfl rfl rfl "c"
  have h3 := h2.2 (by decide)
  exact ⟨h1.1 (by decide), h3.2.1, (h3.2.2 [] _ (by simp) rfl).2.2⟩

/-- C5 - staging queue bound. For every capacity `1 ≤ C` and every state
reachable from `New lim C`: the buffer holds at most `C` events and the goroutine is
never blocked in `r.buffer <- event`; both appends of `pipe` (line 59 below the
headroom, line 64 after the forced wait) find a free slot, succeed, and leave at
most `C` events in the buffer before any flush. -/
theorem C5_queue_bound (lim C : Int) (hC : 1 ≤ C) (r0 s : RLBuffer α) (evs : List (Ev α))
    (hNew : New lim C = .ok r0) (hrun : run r0 evs = some s) :
    (s.buffer.length : Int) ≤ C ∧ (∀ e, s.pc ≠ .sendBlocked e) ∧
      (∀ e : α, s.pc = .select → (s.buffer.length : Int) < s.bufferCap - 1 →
        (s.buffer.length : Int) < s.bufferCap ∧
        sendBuffer s e = .ok { s with buffer := s.buffer ++ [e] } ∧
        ((s.buffer ++ [e]).length : Int) ≤ C) ∧
      (∀ e : α, s.pc = .waitTick e →
        (s.buffer.length : Int) < s.bufferCap ∧
        sendBuffer s e = .ok { s with buffer := s.buffer ++ [e] } ∧
        ((s.buffer ++ [e]).length : Int) ≤ C) := by
  obtain ⟨hg, _, _⟩ := reachable_good lim C hC r0 s evs hNew hrun
  obtain ⟨hlen, hnb, hfree⟩ := good_bound C hC s hg
  refine ⟨hlen, hnb, ?_, ?_⟩
  · intro e hsel _
    obtain ⟨h1, h2⟩ := hfree (Or.inl hsel)
    refine ⟨h1, sendBuffer_free s e h1, ?_⟩
    simp only [List.length_append, List.length_singleton]
    omega
  · intro e hw
    obtain ⟨h1, h2⟩ := hfree (Or.inr ⟨e, hw⟩)
    refine ⟨h1, sendBuffer_free s e h1, ?_⟩
    simp only [List.length_append, List.length_singleton]
    omega

/-- Witness of C5: capacity 3, "a" and "b" staged, "c" held back: the forced
append finds the third slot free. -/
theorem C5_queue_bound_witness :
    sendBuffer (⟨3, false, 3, ["a", "b"], [], false, false, true, .waitTick "c"⟩ :
        RLBuffer String) "c" =
      .ok ⟨3, false, 3, ["a", "b", "c"], [], false, false, true, .waitTick "c"⟩ ∧
    ((["a", "b"] ++ ["c"]).length : Int) ≤ 3 :=
  have h := C5_queue_bound chanLimitAmd64 3 (by decide)
    (⟨3, false, 3, [], [], false, false, false, .idle⟩ : RLBuffer String)
    ⟨3, false, 3, ["a", "b"], [], false, false, true, .waitTick "c"⟩
    [.start, .input "a", .input "b", .input "c"] rfl rfl
  ⟨(h.2.2.2 "c" rfl).2.1, (h.2.2.2 "c" rfl).2.2⟩

/-- C10 - bounded staleness via the tick flush. For every capacity `1 ≤ C`: in a
running state the tick case of `pipe` flushes the whole buffer (output `d ++ q`,
buffer empty), and changes nothing when the buffer is empty; and in every run from
`New lim C`, once a tick has been processed the buffer is empty and every event
accepted before it has been delivered. -/
theorem C10_tick_flush (lim C : Int) (hC : 1 ≤ C) :
    (∀ s : RLBuffer α, Running s →
        step s .tick =
          some { s with buffer := [], deliveries := s.deliveries ++ s.buffer }) ∧
      (∀ s : RLBuffer α, Running s → s.buffer = [] → step s .tick = some s) ∧
      (∀ (r0 s : RLBuffer α) (evs : List (Ev α)), New lim C = .ok r0 →
        run r0 (evs ++ [.tick]) = some s →
          s.buffer = [] ∧ s.deliveries = accepted evs) := by
  refine ⟨step_tick_running, ?_, ?_⟩
  · intro s h hb
    rw [step_tick_running s h]
    obtain ⟨size, ic, cap, buf, del, dc, cd, tr, pc⟩ := s
    simp only at hb
    subst hb
    simp
  · intro r0 s evs hNew hrun
    obtain ⟨m, hm, hs⟩ := run_snoc r0 s evs .tick hrun
    obtain ⟨hg, hacc, _⟩ := reachable_good lim C hC r0 m evs hNew hm
    obtain ⟨h1, h2⟩ := step_tick_good C m s hg hs
    exact ⟨h1, by rw [h2, hacc]⟩

/-- Witness of C10: capacity 3, "a" and "b" staged before the tick; and a tick on
an empty buffer. -/
theorem C10_tick_flush_witness :
    step (⟨3, false, 3, ["a", "b"], [], false, false, true, .select⟩ : RLBuffer String)
        .tick =
      some ⟨3, false, 3, [], ["a", "b"], false, false, true, .select⟩ ∧
    step (⟨3, false, 3, [], ["a", "b"], false, false, true, .select⟩ : RLBuffer String)
        .tick =
      some ⟨3, false, 3, [], ["a", "b"], false, false, true, .select⟩ ∧
    (([] : List String) = [] ∧
      ["a", "b"] = accepted ([.start, .input "a", .input "b"] : List (Ev String))) :=
  have h := @C10_tick_flush String chanLimitAmd64 3 (by decide)
  ⟨h.1 ⟨3, false, 3, ["a", "b"], [], false, false, true, .select⟩ ⟨rfl, rfl, rfl, rfl⟩,
    h.2.1 ⟨3, false, 3, [], ["a", "b"], false, false, true, .select⟩ ⟨rfl, rfl, rfl, rfl⟩
      rfl,
    h.2.2 ⟨3, false, 3, [], [], false, false, false, .idle⟩
      ⟨3, false, 3, [], ["a", "b"], false, false, true, .select⟩
      [.start, .input "a", .input "b"] rfl rfl⟩

/-- C6 - `Push` after shutdown is a loud fault. In every state that follows a
shutdown case of `pipe` (line 71 closed `input`), whatever ran before and after,
`Push e` panics with "send on closed channel" for every event `e`: the call
yields no successor state, so nothing is staged or delivered, and the goroutine
has no intake transition. -/
theorem C6_push_after_shutdown (s s1 : RLBuffer α) (evs evs1 : List (Ev α))
    (hrun : run s (evs ++ .ctxDone :: evs1) = some s1) (e : α) :
    s1.inputClosed = true ∧ Push s1 e = .panic .sendOnClosedChannel ∧
      step s1 (.input e) = none := by
  obtain ⟨m, _, hm⟩ := run_split s s1 evs (.ctxDone :: evs1) hrun
  simp only [run] at hm
  cases hs : step m .ctxDone with
  | none => simp [hs] at hm
  | some m1 =>
      rw [hs] at hm
      have h1 := step_inputClosed m m1 .ctxDone hs (Or.inr rfl)
      have h2 := run_inputClosed evs1 m1 s1 hm h1
      exact ⟨h2, by simp [Push, h2], by simp [step, pipe, Push, h2]⟩

/-- Witness of C6: capacity 3, "x" staged, `Stop`, shutdown; then `Push "late"`. -/
theorem C6_push_after_shutdown_witness :
    (⟨3, true, 3, [], ["x"], true, true, false, .done⟩ : RLBuffer String).inputClosed =
      true ∧
    Push (⟨3, true, 3, [], ["x"], true, true, false, .done⟩ : RLBuffer String) "late" =
      .panic .sendOnClosedChannel ∧
    step (⟨3, true, 3, [], ["x"], true, true, false, .done⟩ : RLBuffer String)
      (.input "late") = none :=
  C6_push_after_shutdown
    (⟨3, false, 3, [], [], false, false, false, .idle⟩ : RLBuffer String)
    ⟨3, true, 3, [], ["x"], true, true, false, .done⟩
    [.start, .input "x", .stop] [] rfl "late"

/-- C7 as stated fails, whatever the channel-size limit of the runtime: `New` at
0 does not return a relay of capacity 1 (it stores the size unchanged); and on
linux/amd64 `New` at `2^62` raises the `make` panic instead of returning. -/
theorem C7_counterexample :
    (¬ ∃ lim : Int, ∀ C : Int,
        ∃ r : RLBuffer String, New lim C = .ok r ∧ r.buffer = [] ∧
          (1 ≤ C → r.bufferCap = C) ∧ (C < 1 → r.bufferCap = 1)) ∧
      (New chanLimitAmd64 4611686018427387904 : Except Fault (RLBuffer String)) =
        .error .makechanSizeOutOfRange := by
  refine ⟨?_, rfl⟩
  rintro ⟨lim, h⟩
  obtain ⟨r, h1, _, _, h4⟩ := h 0
  have hcap := h4 (by decide)
  unfold New at h1
  split at h1
  · cases h1
  · cases h1
    simp at hcap

/-- C7 amended - construction passes the capacity through. For every `C` with
`1 ≤ C` that `make` accepts as a channel size (at most the limit of the runtime
and a Go `int`), `New` raises no error and returns a relay with open channels,
an empty buffer of capacity exactly `C`, `size = C` and nothing delivered. -/
theorem C7_construction_no_clamp (lim C : Int) (hC : 1 ≤ C) (hlim : C ≤ lim)
    (hint : C ≤ maxInt) :
    ∃ r : RLBuffer α, New lim C = .ok r ∧ r.buffer = [] ∧ r.deliveries = [] ∧
      r.bufferCap = C ∧ r.size = C ∧ r.inputClosed = false ∧
      r.deliveriesClosed = false ∧ r.pc = .idle := by
  have hn : ¬ (C < 0 ∨ min lim maxInt < C) := by
    intro h
    rcases h with h | h
    · omega
    · have := le_min hlim hint
      omega
  exact ⟨⟨C, false, C, [], [], false, false, false, .idle⟩,
    by simp only [New, hn, if_false], rfl, rfl, rfl, rfl, rfl, rfl, rfl⟩

/-- Witness of C7: capacity 3 on linux/amd64. -/
theorem C7_construction_no_clamp_witness :
    ∃ r : RLBuffer String, New chanLimitAmd64 3 = .ok r ∧ r.buffer = [] ∧
      r.deliveries = [] ∧ r.bufferCap = 3 ∧ r.size = 3 ∧ r.inputClosed = false ∧
      r.deliveriesClosed = false ∧ r.pc = .idle :=
  @C7_construction_no_clamp String chanLimitAmd64 3 (by decide) (by decide) (by decide)

/-- A relay of capacity 0 cannot stage anything: the first accepted event waits
for the tick and then the goroutine blocks for ever in `r.buffer <- event`
(line 64); the shutdown case is never taken. -/
theorem zero_capacity_blocks :
    run (⟨0, false, 0, [], [], false, false, false, .idle⟩ : RLBuffer String)
        [.start, .input "a", .tick, .stop] =
      some ⟨0, false, 0, [], [], false, true, true, .sendBlocked "a"⟩ ∧
    ∀ ev : Ev String, ev ≠ .stop →
      step (⟨0, false, 0, [], [], false, true, true, .sendBlocked "a"⟩ : RLBuffer String)
        ev = none := by
  refine ⟨rfl, ?_⟩
  intro ev hev
  cases ev <;> simp [step, pipe, Push] at hev ⊢

/-- C8 - failing run. With `size = 2`: "a" is staged, "b" is held back; the tick
delivers "a", "b"; "c" is staged; `Stop` and the shutdown case deliver "c" before
any further tick. The window that starts at the tick sees 3 deliveries, more than
`size`. -/
theorem C8_rate_limit_exceeded_at_shutdown :
    (New chanLimitAmd64 2 : Except Fault (RLBuffer String)) =
        .ok ⟨2, false, 2, [], [], false, false, false, .idle⟩ ∧
      run (⟨2, false, 2, [], [], false, false, false, .idle⟩ : RLBuffer String)
          [.start, .input "a", .input "b", .tick, .input "c", .stop, .ctxDone] =
        some ⟨2, true, 2, [], ["a", "b", "c"], true, true, false, .done⟩ ∧
      windows (⟨2, false, 2, [], [], false, false, false, .idle⟩ : RLBuffer String) 0
          [.start, .input "a", .input "b", .tick, .input "c", .stop, .ctxDone] =
        some [0, 3] ∧
      ¬ ((3 : Int) ≤ (⟨2, false, 2, [], [], false, false, false, .idle⟩ :
          RLBuffer String).size) := by
  refine ⟨rfl, rfl, rfl, by decide⟩

/-- C9 - post-shutdown silence. For every run from `New lim C`, whatever `C`, after
which `deliveries` is closed: `pipe` has returned, the shutdown case (the only
`close(r.deliveries)`) ran exactly once, no intake, tick or shutdown transition is
enabled any more, and whatever follows (only calls of `Stop` can) leaves the
delivered sequence and the closure unchanged and closes nothing again. -/
theorem C9_post_shutdown_silence (lim C : Int) (r0 s : RLBuffer α)
    (evs : List (Ev α)) (hNew : New lim C = .ok r0) (hrun : run r0 evs = some s)
    (hcl : s.deliveriesClosed = true) :
    s.pc = .done ∧ shutdowns evs = 1 ∧
      (∀ e, step s (.input e) = none) ∧ step s .tick = none ∧ step s .ctxDone = none ∧
      (∀ (evs1 : List (Ev α)) (s1 : RLBuffer α), run s evs1 = some s1 →
        Deliveries s1 = Deliveries s ∧ s1.pc = .done ∧ shutdowns evs1 = 0) := by
  obtain ⟨hsane, hcnt⟩ := reachable_sane lim C r0 s evs hNew hrun
  have hpc := sane_closed s hsane hcl
  have hnone : ∀ ev : Ev α, ev ≠ .stop → step s ev = none := by
    intro ev hev
    cases hs : step s ev with
    | none => rfl
    | some s1 => exact absurd (step_done s s1 ev hpc hs).1 hev
  refine ⟨hpc, ?_, fun e => hnone _ (by simp), hnone _ (by simp), hnone _ (by simp), ?_⟩
  · rw [hcl] at hcnt
    simpa using hcnt.symm
  · intro evs1 s1 hrun1
    obtain ⟨h1, h2⟩ := done_run evs1 s s1 hpc hrun1
    rcases h1 with h | h <;> subst h
    · exact ⟨rfl, hpc, h2⟩
    · exact ⟨rfl, hpc, h2⟩

/-- Witness of C9: capacity 3, "x" delivered by the shutdown flush, then a second
call of `Stop`. -/
theorem C9_post_shutdown_silence_witness :
    (Pc.done : Pc String) = .done ∧
    shutdowns ([.start, .input "x", .stop, .ctxDone] : List (Ev String)) = 1 ∧
    step (⟨3, true, 3, [], ["x"], true, true, false, .done⟩ : RLBuffer String) .tick =
      none ∧
    Deliveries (⟨3, true, 3, [], ["x"], true, true, false, .done⟩ : RLBuffer String) =
      Deliveries (⟨3, true, 3, [], ["x"], true, true, false, .done⟩ : RLBuffer String) :=
  have h := C9_post_shutdown_silence chanLimitAmd64 3
    (⟨3, false, 3, [], [], false, false, false, .idle⟩ : RLBuffer String)
    ⟨3, true, 3, [], ["x"], true, true, false, .done⟩
    [.start, .input "x", .stop, .ctxDone] rfl rfl rfl
  ⟨h.1, h.2.1, h.2.2.2.1,
    (h.2.2.2.2.2 [.stop] ⟨3, true, 3, [], ["x"], true, true, false, .done⟩ rfl).1⟩

end RLBuf
